import Mathlib

/-!
Shallow embedding of the harmoniq-maestro deduplicator
(`deduplicator/pkg/service/service.go`, `deduplicator/pkg/utils/utils.go`).

Go strings are modelled as Lean `String`s via their character lists; for the
ASCII paths and playlist lines the program works on, Go's byte indexing and
`len` agree with character indexing and length, which is how the byte slice
`playlistSongPath[6:]` is rendered below.
-/

namespace Harmoniq

/-- Go `strings.Contains(hay, needle)`: `needle` occurs as a contiguous
substring of `hay` (the empty needle is always contained). -/
def strContains (hay needle : String) : Bool :=
  go needle.toList hay.toList
where
  go (nd : List Char) : List Char → Bool
    | [] => nd.isEmpty
    | c :: rest => nd.isPrefixOf (c :: rest) || go nd rest

/-- Splitting a character list around every occurrence of `sep`
(Go `strings.Split` with a one-character separator). -/
def splitChars (sep : Char) : List Char → List (List Char)
  | [] => [[]]
  | c :: rest =>
    let r := splitChars sep rest
    if c = sep then [] :: r
    else
      match r with
      | [] => [[c]]
      | h :: t => (c :: h) :: t

/-- Go `strings.Split(s, sep)` for a one-character separator:
never returns an empty list, `Split("", sep) = [""]`. -/
def goSplit (s : String) (sep : Char) : List String :=
  (splitChars sep s.toList).map List.asString

/-- Go `filepath.Base`: strip trailing separators, keep the final element;
`Base("") = "."`, `Base("/") = "/"`. -/
def goBase (path : String) : String :=
  if path = "" then "."
  else
    let stripped := (path.toList.reverse.dropWhile (fun c => c = '/')).reverse
    let b := (stripped.reverse.takeWhile (fun c => c ≠ '/')).reverse
    if b.isEmpty then "/" else b.asString

/-- Go `filepath.Ext`: the suffix starting at the final dot in the final
slash-separated element of `path`, or `""` when that element has no dot. -/
def goExt (path : String) : String :=
  let seg := path.toList.reverse.takeWhile (fun c => c ≠ '/')
  if seg.contains '.' then ('.' :: (seg.takeWhile (fun c => c ≠ '.')).reverse).asString
  else ""

/-- The canonical key `trackDuplicates` derives from a path:
`fullFilename := filepath.Base(path)`, `extension := filepath.Ext(fullFilename)`,
`baseFilename := fullFilename[:len(fullFilename)-len(extension)]`. -/
def pathKey (p : String) : String :=
  let full := goBase p
  let ext := goExt full
  (full.toList.take (full.toList.length - ext.toList.length)).asString

/-- One invocation of the callback `filepath.Walk` makes while walking the
library root: the visited path, whether it is a directory, and whether the
walk reports an error for this entry (`err != nil`). -/
structure WEntry where
  path : String
  isDir : Bool
  errored : Bool
deriving DecidableEq, Repr

/-- `filePathsMap[k] = append(filePathsMap[k], p)` on the association-list
rendering of the Go map: extend the existing key in place, else add it. -/
def insertPath (m : List (String × List String)) (k p : String) :
    List (String × List String) :=
  match m with
  | [] => [(k, [p])]
  | (k', ps) :: rest =>
    if k' = k then (k', ps ++ [p]) :: rest else (k', ps) :: insertPath rest k p

/-- The body of the `filepath.Walk` callback in `trackDuplicates`
(service.go lines 138-159): errored entries and directories contribute
nothing, `.lrc` files are skipped, every other file is recorded under its
extension-stripped base filename. -/
def walkStep (m : List (String × List String)) (e : WEntry) :
    List (String × List String) :=
  if e.errored then m
  else if e.isDir then m
  else if goExt (goBase e.path) = ".lrc" then m
  else insertPath m (pathKey e.path) e.path

/-- The full accumulation pass of `trackDuplicates` over the walk. -/
def filePathsMap (entries : List WEntry) : List (String × List String) :=
  entries.foldl walkStep []

/-- `trackDuplicates` (service.go lines 133-174): keep only base filenames
with more than one path. -/
def trackDuplicates (entries : List WEntry) : List (String × List String) :=
  (filePathsMap entries).filter (fun kp => decide (1 < kp.2.length))

/-- One entry of the playlists root as seen by `os.ReadDir`, together with
the outcomes of opening and reading it and the lines `utils.ReadLines`
would return (every scanned line, blank lines included). -/
structure MFile where
  name : String
  isDir : Bool
  openErr : Bool
  readErr : Bool
  lines : List String
deriving DecidableEq, Repr

/-- The playlist-reading loop of `RunApp` (service.go lines 28-50):
directories and non-`.m3u` names are skipped; a failure to open a playlist
or a `ReadLines` error is `log.Fatal`, modelled as `none`; otherwise all
lines of all playlists are collected (`usedFiles` keeps them as a set, so
only membership in the result matters). -/
def readPlaylists : List MFile → Option (List String)
  | [] => some []
  | f :: rest =>
    if f.isDir then readPlaylists rest
    else if goExt f.name = ".m3u" then
      if f.openErr then none
      else if f.readErr then none
      else
        match readPlaylists rest with
        | none => none
        | some ls => some (f.lines ++ ls)
    else readPlaylists rest

/-- `usedSongName` for a playlist line (service.go lines 56-57):
`shortPath` is the last `/`-separated segment of the line, and the used song
name is the part of `shortPath` before its first dot. -/
def usedSongName (line : String) : String :=
  (goSplit ((goSplit line '/').getLastD "") '.').headD ""

/-- Whether evaluating `playlistSongPath[6:]` for this line panics
(service.go line 62): the slice is reached whenever the line's used song
name is a key of the duplicates map (its group being nonempty), and Go
string slicing panics when the line is shorter than 6 bytes. -/
def linePanics (dups : List (String × List String)) (line : String) : Bool :=
  match dups.lookup (usedSongName line) with
  | some ps => !ps.isEmpty && decide (line.toList.length < 6)
  | none => false

/-- Membership of a duplicate path in the finished `notSafeToDelete` set
(service.go lines 54-68): some collected line has a used song name that is
a key of the duplicates map, the path belongs to that key's group, and the
path contains the line's byte-6 suffix as a substring. -/
def inNotSafe (dups : List (String × List String)) (lines : List String)
    (p : String) : Bool :=
  lines.any fun line =>
    match dups.lookup (usedSongName line) with
    | some ps =>
      decide (6 ≤ line.toList.length) && ps.contains p &&
        strContains p (line.toList.drop 6).asString
    | none => false

/-- One iteration of the inner `safeToDelete` loop (service.go lines 72-78)
for a group whose first member is `m0`: skip paths in `notSafeToDelete`,
and add the path only while the group's first member has not yet been added
(`safeToDelete` is a Go set, so re-adding is a no-op, kept as the final
guard). -/
def groupStep (ns : String → Bool) (m0 : String) (safe : List String)
    (p : String) : List String :=
  if ns p then safe
  else if safe.contains m0 then safe
  else if safe.contains p then safe
  else safe ++ [p]

/-- The full `safeToDelete` loop (service.go lines 70-79): fold over the
groups in map-iteration order, processing each group's paths in slice order
against the first member `duplicates[duplicateKey][0]` (groups produced by
`trackDuplicates` are never empty, so `headD` never falls back). -/
def safeToDelete (dups : List (String × List String)) (ns : String → Bool) :
    List String :=
  dups.foldl (fun safe kp => kp.2.foldl (groupStep ns (kp.2.headD "")) safe) []

/-- The set a single group contributes to `safeToDelete` when groups are
disjoint: if the first member is protected, every unprotected member; else
the first member alone. -/
def groupContribution (ns : String → Bool) (ps : List String) : List String :=
  if ps.isEmpty then []
  else if ns (ps.headD "") then ps.filter (fun p => !ns p)
  else [ps.headD ""]

/-- Store `k ↦ v` in an association list, overwriting an existing binding
for `k` — the effect of `os.Rename` on an existing destination file. -/
def setAssoc (q : List (String × String)) (k v : String) :
    List (String × String) :=
  match q with
  | [] => [(k, v)]
  | (k', v') :: rest =>
    if k' = k then (k, v) :: rest else (k', v') :: setAssoc rest k v

/-- The move loop of `RunApp` (service.go lines 92-99) as its effect on the
quarantine directory: each removable path is renamed to
`cfg.DuplicatesFolder + filepath.Base(path)` (plain string concatenation,
no separator inserted), and a rename onto an existing name replaces the
file already there. The result maps each destination name to the source
path now stored under it. -/
def executeMoves (dupFolder : String) (safes : List String) :
    List (String × String) :=
  safes.foldl (fun q s => setAssoc q (dupFolder ++ goBase s) s) []

/-- The deduplicator configuration fields `RunApp` uses
(deduplicator config: `DESTINATION_FOLDER`, `PLAYLISTS_ROOT`,
`DUPLICATES_FOLDER`). -/
structure Config where
  destinationFolder : String
  playlistsRoot : String
  duplicatesFolder : String
deriving DecidableEq, Repr

/-- The filesystem facts one run of `RunApp` observes: the calls
`filepath.Walk` makes on the library root, whether `os.ReadDir` on the
playlists root fails, and the entries of the playlists root. -/
structure RunInput where
  libEntries : List WEntry
  playlistRootErr : Bool
  playlistFiles : List MFile
deriving DecidableEq, Repr

/-- What a completed run produced: the duplicates map, the collected
playlist lines, the `safeToDelete` set (in construction order), the rename
calls issued and the final quarantine contents, and the returned group
count. -/
structure RunOutput where
  duplicates : List (String × List String)
  lines : List String
  safe : List String
  moves : List (String × String)
  quarantine : List (String × String)
  count : Nat
deriving DecidableEq, Repr

/-- `RunApp` (service.go lines 14-102). `none` models the process dying
before producing a result: `log.Fatal` on a playlists-root read failure or
on any playlist open/read failure, or the panic of the out-of-range slice
`playlistSongPath[6:]`. All of these occur before any file is moved. -/
def RunApp (cfg : Config) (inp : RunInput) : Option RunOutput :=
  let dups := trackDuplicates inp.libEntries
  if inp.playlistRootErr then none
  else
    match readPlaylists inp.playlistFiles with
    | none => none
    | some lines =>
      if lines.any (linePanics dups) then none
      else
        let safe := safeToDelete dups (inNotSafe dups lines)
        some ⟨dups, lines, safe,
          safe.map (fun s => (s, cfg.duplicatesFolder ++ goBase s)),
          executeMoves cfg.duplicatesFolder safe, dups.length⟩

/-- Spec-side definition, following the spec's words for `ReferenceKey`
normalization: convert to forward-slash form (paths here already are),
strip a leading library-root prefix when present, and trim leading path
separators. Used only to compare the spec's notion of "referenced" with
what the code does. -/
def specNormalize (root s : String) : String :=
  let s1 :=
    if root.toList.isPrefixOf s.toList then (s.toList.drop root.toList.length).asString
    else s
  (s1.toList.dropWhile (fun c => c = '/')).asString

/-- Spec-side definition: the `ReferencedSet` of a run, the normalized
forms of all collected playlist lines. -/
def specReferencedSet (root : String) (lines : List String) : List String :=
  lines.map (specNormalize root)

/-! ### Derived views of the index used by the proofs -/

/-- All paths stored in an index, in storage order. -/
def vals (m : List (String × List String)) : List String :=
  (m.map Prod.snd).flatten

/-- The walk entries whose paths actually get inserted into the index:
not errored, not a directory, not a `.lrc` sidecar. -/
def insertedPaths (entries : List WEntry) : List String :=
  (entries.filter fun e =>
    !e.errored && !e.isDir && !decide (goExt (goBase e.path) = ".lrc")).map WEntry.path

/-! ### Concrete runs used by counterexamples and witnesses

The library roots, walk orders and playlist contents below are chosen to
exercise the classification and move logic on small inputs. -/

/-- A configuration with library root `/lib`, playlists root `/pl` and
quarantine folder value `/q` (no trailing separator, as in the config
default `./duplicates`). -/
def cfgLib : Config := ⟨"/lib", "/pl", "/q"⟩

/-- Walk of a library holding `My.Song.mp3` under two directories: the
filename contains an extra dot. -/
def entDotted : List WEntry :=
  [⟨"/lib/a/My.Song.mp3", false, false⟩, ⟨"/lib/b/My.Song.mp3", false, false⟩]

/-- A playlist referencing `a/My.Song.mp3`, the library-root-relative form
of the first dotted member. -/
def inpDotted : RunInput :=
  ⟨entDotted, false, [⟨"p1.m3u", false, false, false, ["a/My.Song.mp3"]⟩]⟩

/-- The output the run produces on `inpDotted`: the referenced first
member is the one placed in `safeToDelete` and moved. -/
def outDotted : RunOutput :=
  ⟨[("My.Song", ["/lib/a/My.Song.mp3", "/lib/b/My.Song.mp3"])],
    ["a/My.Song.mp3"], ["/lib/a/My.Song.mp3"],
    [("/lib/a/My.Song.mp3", "/qMy.Song.mp3")],
    [("/qMy.Song.mp3", "/lib/a/My.Song.mp3")], 1⟩

/-- Walk of the spec's scenario library: `/lib/a/Song.mp3`,
`/lib/b/Song.lrc`, `/lib/b/Song.mp3`, directories included. -/
def entScenario : List WEntry :=
  [⟨"/lib", true, false⟩, ⟨"/lib/a", true, false⟩,
    ⟨"/lib/a/Song.mp3", false, false⟩, ⟨"/lib/b", true, false⟩,
    ⟨"/lib/b/Song.lrc", false, false⟩, ⟨"/lib/b/Song.mp3", false, false⟩]

/-- The scenario run with playlist line `a/Song.mp3`. -/
def inpScenario : RunInput :=
  ⟨entScenario, false, [⟨"p1.m3u", false, false, false, ["a/Song.mp3"]⟩]⟩

/-- Output of the scenario run: the substring check protects both members
(`.mp3` is contained in each), so nothing is removable. -/
def outScenario : RunOutput :=
  ⟨[("Song", ["/lib/a/Song.mp3", "/lib/b/Song.mp3"])], ["a/Song.mp3"],
    [], [], [], 1⟩

/-- The scenario run with an empty playlist: no member referenced. -/
def inpUnreferenced : RunInput :=
  ⟨entScenario, false, [⟨"p1.m3u", false, false, false, []⟩]⟩

/-- Output of the unreferenced run: the group's FIRST member is the one
placed in `safeToDelete`; the non-primary member is retained. -/
def outUnreferenced : RunOutput :=
  ⟨[("Song", ["/lib/a/Song.mp3", "/lib/b/Song.mp3"])], [], ["/lib/a/Song.mp3"],
    [("/lib/a/Song.mp3", "/qSong.mp3")], [("/qSong.mp3", "/lib/a/Song.mp3")], 1⟩

/-- Walk of a library with three copies of `Song.mp3`. -/
def entTriple : List WEntry :=
  [⟨"/lib/aa/Song.mp3", false, false⟩, ⟨"/lib/b/Song.mp3", false, false⟩,
    ⟨"/lib/c/Song.mp3", false, false⟩]

/-- A playlist line whose byte-6 suffix (`/lib/aa/Song.mp3`) is contained
only in the first member, protecting exactly it. -/
def inpTriple : RunInput :=
  ⟨entTriple, false, [⟨"p.m3u", false, false, false, ["000000/lib/aa/Song.mp3"]⟩]⟩

/-- Output of the triple run: both unprotected members are moved to the
same destination name, and the second rename overwrites the first. -/
def outTriple : RunOutput :=
  ⟨[("Song", ["/lib/aa/Song.mp3", "/lib/b/Song.mp3", "/lib/c/Song.mp3"])],
    ["000000/lib/aa/Song.mp3"], ["/lib/b/Song.mp3", "/lib/c/Song.mp3"],
    [("/lib/b/Song.mp3", "/qSong.mp3"), ("/lib/c/Song.mp3", "/qSong.mp3")],
    [("/qSong.mp3", "/lib/c/Song.mp3")], 1⟩

/-- Walk of a library with two copies of `a.mp3`: the duplicates key is
`a`, and the playlist line `a.mp3` matching it is only 5 bytes long. -/
def entShortKey : List WEntry :=
  [⟨"/x/a.mp3", false, false⟩, ⟨"/y/a.mp3", false, false⟩]

/-- The run whose classification reaches `playlistSongPath[6:]` on the
5-byte line `a.mp3`. -/
def inpShortLine : RunInput :=
  ⟨entShortKey, false, [⟨"p.m3u", false, false, false, ["a.mp3"]⟩]⟩

/-- The calls `filepath.Walk` makes when `os.Lstat` on the root itself
fails: the callback is invoked once for the root with a non-nil error,
the callback returns nil, and the walk ends normally. -/
def rootFailWalk (root : String) : List WEntry := [⟨root, false, true⟩]

/-- A run whose library root cannot be opened but whose playlists are
fine. -/
def inpRootFail : RunInput :=
  ⟨rootFailWalk "/lib", false, [⟨"p1.m3u", false, false, false, ["a/Song.mp3"]⟩]⟩

/-- A run with a playlist file that exists but cannot be opened. -/
def inpBadPlaylist : RunInput :=
  ⟨[], false, [⟨"p.m3u", false, true, false, []⟩]⟩

/-- The bad playlist file of `inpBadPlaylist`. -/
def badPlaylist : MFile := ⟨"p.m3u", false, true, false, []⟩

/-- A run on the short-key library whose playlist line `abcdef/a.mp3` is
long enough not to panic. -/
def inpLongLine : RunInput :=
  ⟨entShortKey, false, [⟨"p.m3u", false, false, false, ["abcdef/a.mp3"]⟩]⟩

/-- Output of the long-line run: the byte-6 suffix `/a.mp3` is contained
in both members, so both are protected. -/
def outLongLine : RunOutput :=
  ⟨[("a", ["/x/a.mp3", "/y/a.mp3"])], ["abcdef/a.mp3"], [], [], [], 1⟩

/-- A duplicates map with two groups, used to exercise determinism. -/
def dupsTwoGroups : List (String × List String) :=
  [("a", ["/x/a.mp3", "/y/a.mp3"]), ("b", ["/x/b.mp3", "/y/b.mp3"])]

/-- The same map with its groups listed in the other iteration order. -/
def dupsTwoGroupsRev : List (String × List String) :=
  [("b", ["/x/b.mp3", "/y/b.mp3"]), ("a", ["/x/a.mp3", "/y/a.mp3"])]

/-! ### Lemmas about the playlist-reading stage -/

/-- A playlist file that is a regular `.m3u` file but cannot be opened or
read makes the whole reading stage fail. -/
theorem readPlaylists_none_of_err (files : List MFile) (f : MFile)
    (hf : f ∈ files) (hdir : f.isDir = false) (hm3u : goExt f.name = ".m3u")
    (herr : f.openErr = true ∨ f.readErr = true) :
    readPlaylists files = none := by
  induction files with
  | nil => cases hf
  | cons g rest ih =>
    rcases List.mem_cons.1 hf with rfl | hmem
    · simp only [readPlaylists, hdir, hm3u, if_pos, if_true, Bool.false_eq_true,
        if_false]
      rcases herr with h | h
      · simp [h]
      · cases hop : f.openErr <;> simp [h]
    · have hrest := ih hmem
      simp only [readPlaylists, hrest]
      cases g.isDir <;> by_cases hex : goExt g.name = ".m3u" <;>
        cases g.openErr <;> cases g.readErr <;> simp_all

/-- Every line of every regular `.m3u` playlist file ends up among the
collected lines (blank lines included: `ReadLines` keeps them and every
line is recorded in `usedFiles`). -/
theorem readPlaylists_mem (files : List MFile) (L : List String)
    (hL : readPlaylists files = some L) (f : MFile) (hf : f ∈ files)
    (hdir : f.isDir = false) (hm3u : goExt f.name = ".m3u") :
    ∀ l ∈ f.lines, l ∈ L := by
  induction files generalizing L with
  | nil => cases hf
  | cons g rest ih =>
    rcases List.mem_cons.1 hf with rfl | hmem
    · simp only [readPlaylists, hdir, hm3u, Bool.false_eq_true, if_false,
        if_true] at hL
      cases hop : f.openErr <;> rw [hop] at hL <;> simp only [if_true,
        Bool.false_eq_true, if_false] at hL
      · cases hrd : f.readErr <;> rw [hrd] at hL <;> simp only [if_true,
          Bool.false_eq_true, if_false] at hL
        · cases hrest : readPlaylists rest <;> rw [hrest] at hL
          · cases hL
          · cases hL
            intro l hl
            exact List.mem_append_left _ hl
        · cases hL
      · cases hL
    · simp only [readPlaylists] at hL
      cases hgd : g.isDir <;> rw [hgd] at hL <;> simp only [if_true,
        Bool.false_eq_true, if_false] at hL
      · by_cases hge : goExt g.name = ".m3u"
        · rw [if_pos hge] at hL
          cases hop : g.openErr <;> rw [hop] at hL <;> simp only [if_true,
            Bool.false_eq_true, if_false] at hL
          · cases hrd : g.readErr <;> rw [hrd] at hL <;> simp only [if_true,
              Bool.false_eq_true, if_false] at hL
            · cases hrest : readPlaylists rest <;> rw [hrest] at hL
              · cases hL
              · cases hL
                intro l hl
                exact List.mem_append_right _ (ih _ hrest hmem l hl)
            · cases hL
          · cases hL
        · rw [if_neg hge] at hL
          exact ih _ hL hmem
      · exact ih _ hL hmem

/-! ### Lemmas about the `safeToDelete` loop -/

/-- Elements already accumulated survive every `groupStep`. -/
theorem mem_groupStep_of_mem (ns : String → Bool) (m0 p q : String)
    (safe : List String) (h : q ∈ safe) : q ∈ groupStep ns m0 safe p := by
  unfold groupStep
  split
  · exact h
  · split
    · exact h
    · split
      · exact h
      · exact List.mem_append_left _ h

/-- Anything `groupStep` adds is the processed path itself, and only when
it is not protected. -/
theorem mem_groupStep (ns : String → Bool) (m0 p q : String)
    (safe : List String) (h : q ∈ groupStep ns m0 safe p) :
    q ∈ safe ∨ (q = p ∧ ns p = false) := by
  unfold groupStep at h
  split at h
  · exact Or.inl h
  · split at h
    · exact Or.inl h
    · split at h
      · exact Or.inl h
      · rcases List.mem_append.1 h with h | h
        · exact Or.inl h
        · rcases List.mem_singleton.1 h with rfl
          exact Or.inr ⟨rfl, by simp_all⟩

/-- Once the group's first member is in the accumulated set, the rest of
the group's fold is a no-op. -/
theorem groupFold_const_of_mem (ns : String → Bool) (m0 : String)
    (ps : List String) (safe : List String) (h : m0 ∈ safe) :
    ps.foldl (groupStep ns m0) safe = safe := by
  induction ps with
  | nil => rfl
  | cons p rest ih =>
    have hstep : groupStep ns m0 safe p = safe := by
      unfold groupStep
      split
      · rfl
      · rw [if_pos (by simpa using h)]
    rw [List.foldl_cons, hstep, ih]

/-- While the first member stays outside the accumulated set, the fold
appends exactly the unprotected processed paths. -/
theorem groupFold_filter (ns : String → Bool) (m0 : String)
    (rest : List String) (safe : List String)
    (hA : ∀ x ∈ rest, x ∉ safe) (hnd : rest.Nodup)
    (hm0A : m0 ∉ safe) (hm0r : m0 ∉ rest) :
    rest.foldl (groupStep ns m0) safe = safe ++ rest.filter (fun p => !ns p) := by
  induction rest generalizing safe with
  | nil => simp
  | cons r rs ih =>
    have hrs : rs.Nodup := (List.nodup_cons.1 hnd).2
    have hrnotin : r ∉ rs := (List.nodup_cons.1 hnd).1
    have hm0rs : m0 ∉ rs := fun h => hm0r (List.mem_cons_of_mem _ h)
    have hm0r' : m0 ≠ r := fun h => hm0r (h ▸ List.mem_cons_self _ _)
    rw [List.foldl_cons]
    cases hns : ns r with
    | true =>
      have hstep : groupStep ns m0 safe r = safe := by
        unfold groupStep
        rw [if_pos hns]
      rw [hstep, ih safe (fun x hx => hA x (List.mem_cons_of_mem _ hx)) hrs hm0A hm0rs]
      simp [List.filter_cons, hns]
    | false =>
      have hstep : groupStep ns m0 safe r = safe ++ [r] := by
        unfold groupStep
        rw [if_neg (by simp [hns]), if_neg (by simpa using hm0A),
          if_neg (by simpa using hA r (List.mem_cons_self _ _))]
      rw [hstep, ih (safe ++ [r])]
      · simp [List.filter_cons, hns]
      · intro x hx
        simp only [List.mem_append, List.mem_singleton]
        rintro (h | rfl)
        · exact hA x (List.mem_cons_of_mem _ hx) h
        · exact hrnotin hx
      · exact hrs
      · simp only [List.mem_append, List.mem_singleton]
        rintro (h | h)
        · exact hm0A h
        · exact hm0r' h
      · exact hm0rs

/-- The fold of one whole group over an accumulated set disjoint from the
group appends exactly the group's contribution: the first member alone
when it is unprotected, all unprotected members when it is protected. -/
theorem groupFold_eq (ns : String → Bool) (ps : List String)
    (safe : List String) (hnd : ps.Nodup) (hA : ∀ x ∈ ps, x ∉ safe) :
    ps.foldl (groupStep ns (ps.headD "")) safe =
      safe ++ groupContribution ns ps := by
  cases ps with
  | nil => simp [groupContribution]
  | cons m0 rest =>
    have hm0A : m0 ∉ safe := hA m0 (List.mem_cons_self _ _)
    have hm0r : m0 ∉ rest := (List.nodup_cons.1 hnd).1
    have hrest : rest.Nodup := (List.nodup_cons.1 hnd).2
    rw [List.foldl_cons]
    cases hns : ns m0 with
    | true =>
      have hstep : groupStep ns (List.headD (m0 :: rest) "") safe m0 = safe := by
        unfold groupStep
        rw [List.headD_cons, if_pos hns]
      rw [hstep]
      rw [groupFold_filter ns _ rest safe
        (fun x hx => hA x (List.mem_cons_of_mem _ hx)) hrest
        (by simpa using hm0A) (by simpa using hm0r)]
      simp [groupContribution, List.filter_cons, hns]
    | false =>
      have hstep : groupStep ns (List.headD (m0 :: rest) "") safe m0 =
          safe ++ [m0] := by
        unfold groupStep
        rw [List.headD_cons, if_neg (by simp [hns]),
          if_neg (by simpa using hm0A), if_neg (by simpa using hm0A)]
      rw [hstep, groupFold_const_of_mem ns _ rest (safe ++ [m0]) (by simp)]
      simp [groupContribution, hns]

/-- A group's contribution consists of members of the group. -/
theorem groupContribution_subset (ns : String → Bool) (ps : List String) :
    ∀ x ∈ groupContribution ns ps, x ∈ ps := by
  intro x hx
  unfold groupContribution at hx
  split at hx
  · cases hx
  · split at hx
    · exact List.mem_of_mem_filter hx
    · rcases List.mem_singleton.1 hx with rfl
      cases ps with
      | nil => simp_all
      | cons m0 rest => simp

/-- The generalized `safeToDelete` fold: starting from an accumulated set
disjoint from every group, the loop appends each group's contribution in
iteration order. -/
theorem safeToDelete_go (dups : List (String × List String))
    (ns : String → Bool) (A : List String)
    (hdisj : dups.Pairwise fun a b => ∀ q ∈ a.2, q ∉ b.2)
    (hnd : ∀ kp ∈ dups, kp.2.Nodup)
    (hA : ∀ kp ∈ dups, ∀ x ∈ kp.2, x ∉ A) :
    dups.foldl (fun safe kp => kp.2.foldl (groupStep ns (kp.2.headD "")) safe) A
      = A ++ (dups.map fun kp => groupContribution ns kp.2).flatten := by
  induction dups generalizing A with
  | nil => simp
  | cons g ds ih =>
    rw [List.foldl_cons,
      groupFold_eq ns g.2 A (hnd g (List.mem_cons_self _ _))
        (hA g (List.mem_cons_self _ _))]
    obtain ⟨hg, hds⟩ := List.pairwise_cons.1 hdisj
    rw [ih (A ++ groupContribution ns g.2) hds
      (fun kp hkp => hnd kp (List.mem_cons_of_mem _ hkp))]
    · simp [List.append_assoc]
    · intro kp hkp x hx
      simp only [List.mem_append]
      rintro (h | h)
      · exact hA kp (List.mem_cons_of_mem _ hkp) x hx h
      · exact hg kp hkp x (groupContribution_subset ns g.2 x h) hx

/-- `safeToDelete` on pairwise-disjoint groups with distinct members is
exactly the concatenation of the groups' contributions. -/
theorem safeToDelete_eq (dups : List (String × List String))
    (ns : String → Bool)
    (hdisj : dups.Pairwise fun a b => ∀ q ∈ a.2, q ∉ b.2)
    (hnd : ∀ kp ∈ dups, kp.2.Nodup) :
    safeToDelete dups ns =
      (dups.map fun kp => groupContribution ns kp.2).flatten := by
  rw [safeToDelete, safeToDelete_go dups ns [] hdisj hnd (by simp)]
  simp

/-- Membership after folding one group: either it was already there, or it
is an unprotected member of the group. No disjointness needed. -/
theorem mem_groupFold (ns : String → Bool) (m0 : String) (ps : List String)
    (A : List String) (q : String) (h : q ∈ ps.foldl (groupStep ns m0) A) :
    q ∈ A ∨ (q ∈ ps ∧ ns q = false) := by
  induction ps generalizing A with
  | nil => exact Or.inl h
  | cons p rest ih =>
    rw [List.foldl_cons] at h
    rcases ih _ h with h' | ⟨h1, h2⟩
    · rcases mem_groupStep ns m0 p q A h' with h'' | ⟨rfl, h''⟩
      · exact Or.inl h''
      · exact Or.inr ⟨List.mem_cons_self _ _, h''⟩
    · exact Or.inr ⟨List.mem_cons_of_mem _ h1, h2⟩

/-- Whatever `safeToDelete` holds is an unprotected member of some group;
no hypotheses needed. -/
theorem safeToDelete_sound (dups : List (String × List String))
    (ns : String → Bool) (q : String) (h : q ∈ safeToDelete dups ns) :
    ∃ kp ∈ dups, q ∈ kp.2 ∧ ns q = false := by
  suffices haux : ∀ (ds : List (String × List String)) (A : List String),
      q ∈ ds.foldl (fun safe kp => kp.2.foldl (groupStep ns (kp.2.headD "")) safe) A →
      q ∈ A ∨ ∃ kp ∈ ds, q ∈ kp.2 ∧ ns q = false by
    rcases haux dups [] h with h' | h'
    · cases h'
    · exact h'
  intro ds
  induction ds with
  | nil => intro A hA; exact Or.inl hA
  | cons g gs ih =>
    intro A hA
    rw [List.foldl_cons] at hA
    rcases ih _ hA with h' | ⟨kp, hkp, hmem, hns⟩
    · rcases mem_groupFold ns _ g.2 A q h' with h'' | ⟨h1, h2⟩
      · exact Or.inl h''
      · exact Or.inr ⟨g, List.mem_cons_self _ _, h1, h2⟩
    · exact Or.inr ⟨kp, List.mem_cons_of_mem _ hkp, hmem, hns⟩

/-! ### Well-formedness of the duplicates index -/

/-- `walkStep` in guarded form. -/
theorem walkStep_eq (m : List (String × List String)) (e : WEntry) :
    walkStep m e =
      if !e.errored && !e.isDir && !decide (goExt (goBase e.path) = ".lrc")
      then insertPath m (pathKey e.path) e.path else m := by
  unfold walkStep
  cases e.errored <;> cases e.isDir <;>
    by_cases hx : goExt (goBase e.path) = ".lrc" <;> simp [hx]

/-- Key list after an insertion. -/
theorem keys_insertPath (m : List (String × List String)) (k p : String) :
    (insertPath m k p).map Prod.fst =
      if k ∈ m.map Prod.fst then m.map Prod.fst else m.map Prod.fst ++ [k] := by
  induction m with
  | nil => simp [insertPath]
  | cons kp rest ih =>
    obtain ⟨k', ps⟩ := kp
    by_cases hk : k' = k
    · subst hk
      simp [insertPath]
    · simp only [insertPath, if_neg hk, List.map_cons, ih]
      have : (k ∈ k' :: rest.map Prod.fst) ↔ k ∈ rest.map Prod.fst := by
        simp [List.mem_cons, Ne.symm hk]
      by_cases hm : k ∈ rest.map Prod.fst <;> simp [hm, this]

/-- Insertion preserves distinctness of keys. -/
theorem keys_nodup_insertPath (m : List (String × List String)) (k p : String)
    (h : (m.map Prod.fst).Nodup) : ((insertPath m k p).map Prod.fst).Nodup := by
  rw [keys_insertPath]
  by_cases hm : k ∈ m.map Prod.fst
  · simpa [hm] using h
  · simp [hm, List.nodup_append, h]

/-- Insertion under the right key preserves key-correctness of the index. -/
theorem keyCorrect_insertPath (m : List (String × List String)) (k p : String)
    (hk : pathKey p = k) (h : ∀ kp ∈ m, ∀ q ∈ kp.2, pathKey q = kp.1) :
    ∀ kp ∈ insertPath m k p, ∀ q ∈ kp.2, pathKey q = kp.1 := by
  induction m with
  | nil =>
    intro kp hkp q hq
    simp only [insertPath, List.mem_singleton] at hkp
    subst hkp
    rcases List.mem_singleton.1 hq with rfl
    exact hk
  | cons hd rest ih =>
    obtain ⟨k', ps⟩ := hd
    by_cases hkk : k' = k
    · subst hkk
      intro kp hkp q hq
      simp only [insertPath, if_pos rfl] at hkp
      rcases List.mem_cons.1 hkp with rfl | hmem
      · rcases List.mem_append.1 hq with h' | h'
        · exact h (k', ps) (List.mem_cons_self _ _) q h'
        · rcases List.mem_singleton.1 h' with rfl
          exact hk
      · exact h kp (List.mem_cons_of_mem _ hmem) q hq
    · intro kp hkp q hq
      simp only [insertPath, if_neg hkk] at hkp
      rcases List.mem_cons.1 hkp with rfl | hmem
      · exact h (k', ps) (List.mem_cons_self _ _) q hq
      · exact ih (fun kp' hkp' => h kp' (List.mem_cons_of_mem _ hkp')) kp hmem q hq

/-- Insertion adds exactly the inserted path to the stored paths. -/
theorem vals_insertPath (m : List (String × List String)) (k p : String) :
    (vals (insertPath m k p)).Perm (p :: vals m) := by
  induction m with
  | nil => simp [insertPath, vals]
  | cons hd rest ih =>
    obtain ⟨k', ps⟩ := hd
    by_cases hk : k' = k
    · subst hk
      have h0 : insertPath ((k', ps) :: rest) k' p = (k', ps ++ [p]) :: rest := by
        simp [insertPath]
      rw [h0]
      show ((ps ++ [p]) ++ vals rest).Perm (p :: (ps ++ vals rest))
      rw [List.append_assoc]
      exact List.perm_middle
    · have h0 : insertPath ((k', ps) :: rest) k p = (k', ps) :: insertPath rest k p := by
        simp [insertPath, hk]
      rw [h0]
      show (ps ++ vals (insertPath rest k p)).Perm (p :: (ps ++ vals rest))
      exact (ih.append_left ps).trans List.perm_middle

/-- Every group's member list is a sublist of the stored paths. -/
theorem group_sublist_vals (m : List (String × List String))
    (kp : String × List String) (h : kp ∈ m) : List.Sublist kp.2 (vals m) := by
  induction m with
  | nil => cases h
  | cons hd rest ih =>
    rcases List.mem_cons.1 h with rfl | hmem
    · exact List.sublist_append_left kp.2 (vals rest)
    · exact (ih hmem).trans
        (show (vals rest).Sublist (vals (hd :: rest)) from
          List.sublist_append_right hd.2 (vals rest))

/-- The accumulation pass preserves key distinctness and key correctness. -/
theorem filePathsMap_go_wf (entries : List WEntry)
    (m : List (String × List String)) (h1 : (m.map Prod.fst).Nodup)
    (h2 : ∀ kp ∈ m, ∀ q ∈ kp.2, pathKey q = kp.1) :
    ((entries.foldl walkStep m).map Prod.fst).Nodup ∧
      ∀ kp ∈ entries.foldl walkStep m, ∀ q ∈ kp.2, pathKey q = kp.1 := by
  induction entries generalizing m with
  | nil => exact ⟨h1, h2⟩
  | cons e es ih =>
    rw [List.foldl_cons, walkStep_eq]
    by_cases hc : (!e.errored && !e.isDir &&
        !decide (goExt (goBase e.path) = ".lrc")) = true
    · rw [if_pos hc]
      exact ih _ (keys_nodup_insertPath m _ _ h1)
        (keyCorrect_insertPath m _ _ rfl h2)
    · rw [if_neg hc]
      exact ih _ h1 h2

/-- The paths stored by the accumulation pass are exactly the inserted
walk paths (up to order). -/
theorem vals_filePathsMap_go (entries : List WEntry)
    (m : List (String × List String)) :
    (vals (entries.foldl walkStep m)).Perm (insertedPaths entries ++ vals m) := by
  induction entries generalizing m with
  | nil => simp [insertedPaths]
  | cons e es ih =>
    rw [List.foldl_cons, walkStep_eq]
    cases hc : (!e.errored && !e.isDir &&
        !decide (goExt (goBase e.path) = ".lrc")) with
    | true =>
      simp only [hc, if_true]
      have h3 : insertedPaths (e :: es) = e.path :: insertedPaths es := by
        simp only [insertedPaths, List.filter_cons, hc, if_true, List.map_cons]
      rw [h3]
      refine (ih _).trans ?_
      show (insertedPaths es ++ vals (insertPath m (pathKey e.path) e.path)).Perm
        (e.path :: (insertedPaths es ++ vals m))
      exact ((vals_insertPath m _ _).append_left _).trans List.perm_middle
    | false =>
      simp only [hc, Bool.false_eq_true, if_false]
      have h3 : insertedPaths (e :: es) = insertedPaths es := by
        simp only [insertedPaths, List.filter_cons, hc, Bool.false_eq_true, if_false]
      rw [h3]
      exact ih _

/-- The duplicates map has pairwise-distinct keys. -/
theorem trackDuplicates_keys_nodup (entries : List WEntry) :
    ((trackDuplicates entries).map Prod.fst).Nodup := by
  have hwf := filePathsMap_go_wf entries [] (by simp) (by simp)
  exact hwf.1.sublist ((List.filter_sublist _).map Prod.fst)

/-- Every stored path carries exactly its group's key. -/
theorem trackDuplicates_keyCorrect (entries : List WEntry) :
    ∀ kp ∈ trackDuplicates entries, ∀ q ∈ kp.2, pathKey q = kp.1 := by
  have hwf := filePathsMap_go_wf entries [] (by simp) (by simp)
  intro kp hkp
  exact hwf.2 kp (List.mem_of_mem_filter hkp)

/-- Every duplicate group retained by `trackDuplicates` has at least two
members. -/
theorem trackDuplicates_two_le (entries : List WEntry) :
    ∀ kp ∈ trackDuplicates entries, 2 ≤ kp.2.length := by
  intro kp hkp
  have := (List.mem_filter.1 hkp).2
  have h1 : 1 < kp.2.length := of_decide_eq_true this
  omega

/-- When the walk reports each path at most once, every group's member
list is duplicate-free. -/
theorem trackDuplicates_groups_nodup (entries : List WEntry)
    (hnd : (entries.map WEntry.path).Nodup) :
    ∀ kp ∈ trackDuplicates entries, kp.2.Nodup := by
  have hinserted : (insertedPaths entries).Nodup :=
    hnd.sublist ((List.filter_sublist entries).map WEntry.path)
  have hperm := vals_filePathsMap_go entries []
  have hvals : (vals (filePathsMap entries)).Nodup := by
    refine (List.Perm.nodup ?_) hinserted
    have : vals ([] : List (String × List String)) = [] := rfl
    rw [show insertedPaths entries ++ vals ([] : List (String × List String)) =
      insertedPaths entries by simp [vals]] at hperm
    exact hperm.symm
  intro kp hkp
  exact hvals.sublist
    (group_sublist_vals (filePathsMap entries) kp (List.mem_of_mem_filter hkp))

/-- Distinct duplicate groups have disjoint member lists: a path's group
key is derived from the path itself. -/
theorem trackDuplicates_pairwise (entries : List WEntry) :
    (trackDuplicates entries).Pairwise fun a b => ∀ q ∈ a.2, q ∉ b.2 := by
  have hkeys := trackDuplicates_keys_nodup entries
  have hkc := trackDuplicates_keyCorrect entries
  have hpw : (trackDuplicates entries).Pairwise fun a b => a.1 ≠ b.1 :=
    List.pairwise_map.1 hkeys
  refine List.Pairwise.imp_of_mem ?_ hpw
  intro a b ha hb hne q hqa hqb
  exact hne ((hkc a ha q hqa).symm.trans (hkc b hb q hqb))

/-- Under pairwise disjointness, a path determines its group. -/
theorem disjoint_unique_group (dups : List (String × List String))
    (hdisj : dups.Pairwise fun a b => ∀ q ∈ a.2, q ∉ b.2)
    (g kp : String × List String) (hg : g ∈ dups) (hkp : kp ∈ dups)
    (q : String) (hq : q ∈ g.2) (hq' : q ∈ kp.2) : g = kp := by
  induction dups with
  | nil => cases hg
  | cons a ds ih =>
    obtain ⟨ha, hds⟩ := List.pairwise_cons.1 hdisj
    rcases List.mem_cons.1 hg with rfl | hg' <;>
      rcases List.mem_cons.1 hkp with rfl | hkp'
    · rfl
    · exact absurd hq' (ha kp hkp' q hq)
    · exact absurd hq (ha g hg' q hq')
    · exact ih hds hg' hkp'

/-- Distinct keys and key-correct members force pairwise-disjoint groups
in any index. -/
theorem pairwise_disjoint_of_keys (dups : List (String × List String))
    (hkeys : (dups.map Prod.fst).Nodup)
    (hkc : ∀ kp ∈ dups, ∀ q ∈ kp.2, pathKey q = kp.1) :
    dups.Pairwise fun a b => ∀ q ∈ a.2, q ∉ b.2 := by
  have hpw : dups.Pairwise fun a b => a.1 ≠ b.1 := List.pairwise_map.1 hkeys
  refine List.Pairwise.imp_of_mem ?_ hpw
  intro a b ha hb hne q hqa hqb
  exact hne ((hkc a ha q hqa).symm.trans (hkc b hb q hqb))

/-- `groupStep` never introduces a duplicate into the accumulated set. -/
theorem groupStep_nodup (ns : String → Bool) (m0 p : String)
    (safe : List String) (h : safe.Nodup) : (groupStep ns m0 safe p).Nodup := by
  unfold groupStep
  split
  · exact h
  · split
    · exact h
    · split
      · exact h
      · next hp =>
        have hnp : p ∉ safe := by simpa using hp
        simp [List.nodup_append, h, hnp]

/-- Folding any path list through `groupStep` keeps the accumulated set
duplicate-free. -/
theorem groupFold_nodup (ns : String → Bool) (m0 : String) (ps : List String)
    (A : List String) (hA : A.Nodup) : (ps.foldl (groupStep ns m0) A).Nodup := by
  induction ps generalizing A with
  | nil => exact hA
  | cons p rest ih =>
    rw [List.foldl_cons]
    exact ih _ (groupStep_nodup ns m0 p A hA)

/-- The whole `safeToDelete` set is duplicate-free, unconditionally. -/
theorem safeToDelete_nodup (dups : List (String × List String))
    (ns : String → Bool) : (safeToDelete dups ns).Nodup := by
  suffices haux : ∀ (ds : List (String × List String)) (A : List String),
      A.Nodup →
      (ds.foldl (fun safe kp => kp.2.foldl (groupStep ns (kp.2.headD "")) safe) A).Nodup by
    exact haux dups [] List.nodup_nil
  intro ds
  induction ds with
  | nil => intro A hA; exact hA
  | cons g gs ih =>
    intro A hA
    rw [List.foldl_cons]
    exact ih _ (groupFold_nodup ns _ g.2 A hA)

/-- A duplicate-free list missing one member of `members` restricted to
`members` is strictly shorter than `members`. -/
theorem filter_mem_length_lt (safe members : List String) (hs : safe.Nodup)
    (m : String) (hm : m ∈ members) (hmn : m ∉ safe) :
    (safe.filter (fun p => members.contains p)).length < members.length := by
  have hnd' : (safe.filter (fun p => members.contains p)).Nodup := hs.filter _
  have hsub : ∀ x ∈ safe.filter (fun p => members.contains p), x ∈ members.erase m := by
    intro x hx
    have hxm : x ∈ members := by
      have := (List.mem_filter.1 hx).2
      simpa using this
    have hxs : x ∈ safe := (List.mem_filter.1 hx).1
    have hne : x ≠ m := fun h => hmn (h ▸ hxs)
    exact (List.mem_erase_of_ne hne).2 hxm
  have hle := (hnd'.subperm hsub).length_le
  have herase := List.length_erase_of_mem hm
  have hpos : 0 < members.length := List.length_pos_of_mem hm
  omega

/-- Map lookups are insensitive to the iteration order when keys are
distinct. -/
theorem lookup_perm {l₁ l₂ : List (String × List String)} (h : l₁.Perm l₂) :
    (l₁.map Prod.fst).Nodup → ∀ k, l₁.lookup k = l₂.lookup k := by
  induction h with
  | nil => intro _ k; rfl
  | cons x hp ih =>
    intro hnd k
    rw [List.map_cons] at hnd
    have hnd' := (List.nodup_cons.1 hnd).2
    cases hkx : k == x.1 <;> simp [List.lookup, hkx, ih hnd' k]
  | swap x y l =>
    intro hnd k
    rw [List.map_cons, List.map_cons] at hnd
    have hymem := (List.nodup_cons.1 hnd).1
    have hxy : y.1 ≠ x.1 := fun he => hymem (by simp [he])
    cases hkx : k == x.1 <;> cases hky : k == y.1
    · simp [List.lookup, hkx, hky]
    · simp [List.lookup, hkx, hky]
    · simp [List.lookup, hkx, hky]
    · exact absurd ((eq_of_beq hky).symm.trans (eq_of_beq hkx)) hxy
  | trans h₁ h₂ ih₁ ih₂ =>
    intro hnd k
    rw [ih₁ hnd k, ih₂ ((h₁.map Prod.fst).nodup hnd) k]

/-- `List.any` depends only on the membership of the list and the values
of the predicate. -/
theorem any_congr (L₁ L₂ : List String) (f g : String → Bool)
    (hm : ∀ l, l ∈ L₁ ↔ l ∈ L₂) (hf : ∀ l, f l = g l) :
    L₁.any f = L₂.any g := by
  cases h1 : L₁.any f <;> cases h2 : L₂.any g
  · rfl
  · rcases List.any_eq_true.1 h2 with ⟨x, hx, hgx⟩
    have : L₁.any f = true :=
      List.any_eq_true.2 ⟨x, (hm x).2 hx, (hf x).symm ▸ hgx⟩
    rw [h1] at this
    cases this
  · rcases List.any_eq_true.1 h1 with ⟨x, hx, hfx⟩
    have : L₂.any g = true :=
      List.any_eq_true.2 ⟨x, (hm x).1 hx, (hf x) ▸ hfx⟩
    rw [h2] at this
    cases this
  · rfl

/-- Lookup after an overwriting store. -/
theorem lookup_setAssoc (q : List (String × String)) (k v k' : String) :
    (setAssoc q k v).lookup k' = if k' == k then some v else q.lookup k' := by
  induction q with
  | nil => cases hk' : k' == k <;> simp [setAssoc, List.lookup, hk']
  | cons hd rest ih =>
    obtain ⟨k₀, v₀⟩ := hd
    by_cases hk : k₀ = k
    · subst hk
      have hstep : setAssoc ((k₀, v₀) :: rest) k₀ v = (k₀, v) :: rest := by
        simp [setAssoc]
      rw [hstep]
      cases hk' : k' == k₀ <;> simp [List.lookup, hk']
    · have hstep : setAssoc ((k₀, v₀) :: rest) k v = (k₀, v₀) :: setAssoc rest k v := by
        simp [setAssoc, hk]
      rw [hstep]
      cases hk' : k' == k₀
      · simp [List.lookup, hk', ih]
      · have hne : k' ≠ k := by
          intro he
          apply hk
          rw [← eq_of_beq hk', he]
        have hkkf : (k' == k) = false := beq_false_of_ne hne
        simp [List.lookup, hk', hkkf]

/-- The final quarantine binding for each destination name: the last
removable path moved there wins; earlier ones are overwritten. -/
theorem executeMoves_lookup (d : String) (safes : List String) (k : String) :
    (executeMoves d safes).lookup k =
      (safes.filter (fun s => d ++ goBase s == k)).getLast? := by
  suffices haux : ∀ (ss : List String) (q : List (String × String)),
      (ss.foldl (fun q s => setAssoc q (d ++ goBase s) s) q).lookup k =
        match (ss.filter (fun s => d ++ goBase s == k)).getLast? with
        | some t => some t
        | none => q.lookup k by
    rw [executeMoves, haux safes []]
    cases hl : (safes.filter (fun s => d ++ goBase s == k)).getLast? <;> rfl
  intro ss
  induction ss with
  | nil => intro q; rfl
  | cons s rest ih =>
    intro q
    rw [List.foldl_cons, ih, List.filter_cons]
    cases hfs : (d ++ goBase s == k) with
    | false =>
      simp only [Bool.false_eq_true, if_false]
      cases hrest : (rest.filter (fun x => d ++ goBase x == k)).getLast? with
      | some t => rfl
      | none =>
        rw [lookup_setAssoc]
        have hke : (k == d ++ goBase s) = false := by
          refine beq_false_of_ne ?_
          intro he
          exact (beq_eq_false_iff_ne.1 hfs) he.symm
        simp [hke]
    | true =>
      simp only [if_true]
      cases hfil : rest.filter (fun x => d ++ goBase x == k) with
      | nil =>
        simp only [List.getLast?_nil, List.getLast?_singleton]
        rw [lookup_setAssoc]
        have hke : (k == d ++ goBase s) = true := beq_iff_eq.2 (eq_of_beq hfs).symm
        simp [hke]
      | cons a l' =>
        rw [List.getLast?_cons_cons]
        cases hg : (a :: l').getLast? with
        | some t => rfl
        | none =>
          exact absurd (List.getLast?_eq_none_iff.1 hg) (List.cons_ne_nil a l')

/-- No `.lrc` path is ever stored in the index. -/
theorem not_lrc_of_mem_vals (entries : List WEntry) (p : String)
    (h : p ∈ vals (filePathsMap entries)) : goExt (goBase p) ≠ ".lrc" := by
  have hperm := vals_filePathsMap_go entries []
  have hp : p ∈ insertedPaths entries := by
    have := hperm.subset h
    simpa [vals] using this
  rcases List.mem_map.1 hp with ⟨e, he, rfl⟩
  have hcond := (List.mem_filter.1 he).2
  intro hlrc
  rw [hlrc] at hcond
  simp at hcond

/-- Lines that match no duplicate key never panic; with an empty index no
line panics. -/
theorem linePanics_nil (l : String) : linePanics [] l = false := rfl

/-! ### Inversion of a completed run -/

/-- If `RunApp` completes, all of the run's artifacts are determined by
the stages of the pipeline. -/
theorem RunApp_some_elim (cfg : Config) (inp : RunInput) (out : RunOutput)
    (h : RunApp cfg inp = some out) :
    inp.playlistRootErr = false ∧
    readPlaylists inp.playlistFiles = some out.lines ∧
    out.duplicates = trackDuplicates inp.libEntries ∧
    out.lines.any (linePanics (trackDuplicates inp.libEntries)) = false ∧
    out.safe = safeToDelete (trackDuplicates inp.libEntries)
      (inNotSafe (trackDuplicates inp.libEntries) out.lines) ∧
    out.moves = out.safe.map (fun s => (s, cfg.duplicatesFolder ++ goBase s)) ∧
    out.quarantine = executeMoves cfg.duplicatesFolder out.safe ∧
    out.count = (trackDuplicates inp.libEntries).length := by
  unfold RunApp at h
  cases hre : inp.playlistRootErr <;> rw [hre] at h
  · simp only [Bool.false_eq_true, if_false] at h
    cases hr : readPlaylists inp.playlistFiles <;> rw [hr] at h
    · cases h
    · rename_i lines
      dsimp only at h
      cases hp : lines.any (linePanics (trackDuplicates inp.libEntries)) <;>
        rw [hp] at h
      · simp only [Bool.false_eq_true, if_false] at h
        cases h
        exact ⟨rfl, rfl, rfl, hp, rfl, rfl, rfl, rfl⟩
      · simp at h
  · simp at h

/-! ### The claims -/

/-- C8: if any regular `.m3u` playlist file under the playlists root
cannot be opened or read, `RunApp` dies via `log.Fatal` before the
classification loops and before any `os.Rename`: the run produces no
output at all, and never continues with a smaller reference set. -/
theorem playlist_failure_aborts_run (cfg : Config) (inp : RunInput)
    (f : MFile) (hf : f ∈ inp.playlistFiles) (hdir : f.isDir = false)
    (hm3u : goExt f.name = ".m3u")
    (herr : f.openErr = true ∨ f.readErr = true) :
    RunApp cfg inp = none := by
  unfold RunApp
  rw [readPlaylists_none_of_err inp.playlistFiles f hf hdir hm3u herr]
  cases inp.playlistRootErr <;> simp

/-- Witness for C8 at a concrete unopenable playlist. -/
theorem playlist_failure_aborts_run_witness :
    badPlaylist ∈ inpBadPlaylist.playlistFiles ∧
      RunApp cfgLib inpBadPlaylist = none :=
  ⟨by decide, playlist_failure_aborts_run cfgLib inpBadPlaylist badPlaylist
    (by decide) (by decide) (by decide) (Or.inl (by decide))⟩

/-- C6: a file whose extension is `.lrc` never appears as a member of any
duplicate group, never enters `safeToDelete`, and is never the source of
a quarantine move. -/
theorem lrc_sidecar_untouched (cfg : Config) (inp : RunInput)
    (out : RunOutput) (p : String) (hext : goExt (goBase p) = ".lrc")
    (hrun : RunApp cfg inp = some out) :
    (∀ kp ∈ out.duplicates, p ∉ kp.2) ∧ p ∉ out.safe ∧
      ∀ mv ∈ out.moves, mv.1 ≠ p := by
  obtain ⟨-, -, hdup, -, hsafe, hmoves, -, -⟩ := RunApp_some_elim cfg inp out hrun
  have hnotin : ∀ kp ∈ trackDuplicates inp.libEntries, p ∉ kp.2 := by
    intro kp hkp hmem
    have hv : p ∈ vals (filePathsMap inp.libEntries) :=
      (group_sublist_vals _ kp (List.mem_of_mem_filter hkp)).subset hmem
    exact not_lrc_of_mem_vals _ p hv hext
  have hnsafe : p ∉ out.safe := by
    rw [hsafe]
    intro hmem
    rcases safeToDelete_sound _ _ p hmem with ⟨kp, hkp, hpmem, -⟩
    exact hnotin kp hkp hpmem
  refine ⟨by rw [hdup]; exact hnotin, hnsafe, ?_⟩
  intro mv hmv
  rw [hmoves] at hmv
  rcases List.mem_map.1 hmv with ⟨s, hs, rfl⟩
  intro he
  exact hnsafe (he ▸ hs)

/-- Witness for C6 on the scenario library containing
`/lib/b/Song.lrc`. -/
theorem lrc_sidecar_untouched_witness :
    RunApp cfgLib inpScenario = some outScenario ∧
    ((∀ kp ∈ outScenario.duplicates, ("/lib/b/Song.lrc" : String) ∉ kp.2) ∧
      ("/lib/b/Song.lrc" : String) ∉ outScenario.safe ∧
      ∀ mv ∈ outScenario.moves, mv.1 ≠ "/lib/b/Song.lrc") :=
  ⟨by decide, lrc_sidecar_untouched cfgLib inpScenario outScenario
    "/lib/b/Song.lrc" (by decide) (by decide)⟩

/-- C7 counterexample: when `os.Lstat` on the library root fails,
`filepath.Walk`'s callback swallows the error (it returns nil), so the
run does NOT stop: it proceeds through playlist reading, classification
and the (empty) move step and returns normally — the claim's "root
failure is fatal" is false on the code. -/
theorem root_walk_failure_not_fatal_cex :
    RunApp cfgLib inpRootFail = some ⟨[], ["a/Song.mp3"], [], [], [], 0⟩ := by
  decide

/-- C7 (amended): an error on an individual walk entry only skips that
entry (the index is as if the entry were absent), and a failure to open
the library root is NOT fatal: the walk yields an empty index and the run
continues to classification and the move step. -/
theorem walk_error_skips_entry_root_error_continues (pre post : List WEntry)
    (e : WEntry) (he : e.errored = true) (cfg : Config) (inp : RunInput)
    (hroot : inp.libEntries = rootFailWalk cfg.destinationFolder)
    (hpr : inp.playlistRootErr = false) (L : List String)
    (hL : readPlaylists inp.playlistFiles = some L) :
    trackDuplicates (pre ++ e :: post) = trackDuplicates (pre ++ post) ∧
      (RunApp cfg inp).isSome = true := by
  constructor
  · have hw : ∀ m, walkStep m e = m := by
      intro m
      rw [walkStep_eq, he]
      simp
    unfold trackDuplicates filePathsMap
    rw [List.foldl_append, List.foldl_cons, hw, ← List.foldl_append]
  · have hdups : trackDuplicates inp.libEntries = [] := by
      rw [hroot]
      rfl
    have hnp : L.any (linePanics (trackDuplicates inp.libEntries)) = false := by
      rw [hdups]
      rw [List.any_eq_false]
      intro x _
      simp [linePanics_nil]
    unfold RunApp
    rw [hpr, hL]
    simp only [Bool.false_eq_true, if_false]
    rw [hnp]
    simp

/-- Witness for the amended C7 at a concrete errored entry and concrete
root failure. -/
theorem walk_error_skips_entry_root_error_continues_witness :
    trackDuplicates ([⟨"/lib/a/Song.mp3", false, false⟩] ++
        ⟨"/lib/bad", false, true⟩ :: [⟨"/lib/b/Song.mp3", false, false⟩]) =
      trackDuplicates ([⟨"/lib/a/Song.mp3", false, false⟩] ++
        [⟨"/lib/b/Song.mp3", false, false⟩]) ∧
      (RunApp cfgLib inpRootFail).isSome = true :=
  walk_error_skips_entry_root_error_continues
    [⟨"/lib/a/Song.mp3", false, false⟩] [⟨"/lib/b/Song.mp3", false, false⟩]
    ⟨"/lib/bad", false, true⟩ (by decide) cfgLib inpRootFail (by decide)
    (by decide) ["a/Song.mp3"] (by decide)

/-- C10: the classification step is partial. Whenever a run completes,
every collected line whose used song name is a duplicates key (with its
nonempty group) is at least 6 bytes long — the precondition that keeps
`playlistSongPath[6:]` in range. Every line of every playlist (blanks
included) is collected. And on the concrete short-line input the slice is
out of range and the run dies. -/
theorem classification_slice_partial (cfg : Config) (inp : RunInput)
    (out : RunOutput) (hrun : RunApp cfg inp = some out) :
    (∀ line ∈ out.lines, ∀ ps,
      (trackDuplicates inp.libEntries).lookup (usedSongName line) = some ps →
      ps ≠ [] → 6 ≤ line.length) ∧
    (∀ f ∈ inp.playlistFiles, f.isDir = false → goExt f.name = ".m3u" →
      ∀ l ∈ f.lines, l ∈ out.lines) ∧
    RunApp cfgLib inpShortLine = none := by
  obtain ⟨-, hread, -, hpan, -, -, -, -⟩ := RunApp_some_elim cfg inp out hrun
  refine ⟨?_, ?_, by decide⟩
  · intro line hline ps hps hne
    have hlp : linePanics (trackDuplicates inp.libEntries) line = false := by
      by_contra hcon
      have hx : out.lines.any (linePanics (trackDuplicates inp.libEntries)) = true :=
        List.any_eq_true.2 ⟨line, hline, by simpa using hcon⟩
      rw [hpan] at hx
      cases hx
    unfold linePanics at hlp
    rw [hps] at hlp
    dsimp only at hlp
    have hpe : ps.isEmpty = false := by
      cases ps with
      | nil => exact absurd rfl hne
      | cons a l => rfl
    rw [hpe] at hlp
    simp at hlp
    omega
  · intro f hf hdir hm3u
    exact readPlaylists_mem inp.playlistFiles out.lines hread f hf hdir hm3u

/-- Witness for C10 on a completed run over the same short-key library
with a long enough line. -/
theorem classification_slice_partial_witness :
    RunApp cfgLib inpLongLine = some outLongLine ∧
    ((∀ line ∈ outLongLine.lines, ∀ ps,
      (trackDuplicates inpLongLine.libEntries).lookup (usedSongName line) = some ps →
      ps ≠ [] → 6 ≤ line.length) ∧
    (∀ f ∈ inpLongLine.playlistFiles, f.isDir = false → goExt f.name = ".m3u" →
      ∀ l ∈ f.lines, l ∈ outLongLine.lines) ∧
    RunApp cfgLib inpShortLine = none) :=
  ⟨by decide, classification_slice_partial cfgLib inpLongLine outLongLine
    (by decide)⟩

/-- C1: the safety invariant fails on the code. In `inpDotted` the
playlist line `a/My.Song.mp3` normalizes to exactly the relativized first
member, so that member is in the `ReferencedSet`; yet the run puts it in
`safeToDelete` and renames it away. The classifier splits the playlist
basename at its FIRST dot (`My`) while the indexer strips only the final
extension (group key `My.Song`), so the reference matches no group key
and protects nothing. -/
theorem referenced_path_moved_bug :
    RunApp cfgLib inpDotted = some outDotted ∧
    specNormalize "/lib" "/lib/a/My.Song.mp3" ∈
      specReferencedSet "/lib" outDotted.lines ∧
    specNormalize "/lib" "/lib/a/My.Song.mp3" =
      specNormalize "/lib" "a/My.Song.mp3" ∧
    ("/lib/a/My.Song.mp3" : String) ∈ outDotted.safe ∧
    ("/lib/a/My.Song.mp3", "/qMy.Song.mp3") ∈ outDotted.moves := by
  decide

/-- C3 counterexample: in the spec's scenario the code does NOT classify
by exact relative-path equality. The line `a/Song.mp3` relativizes to
`a/Song.mp3`, which differs from `/lib/b/Song.mp3`'s relativized form
`b/Song.mp3`, yet `/lib/b/Song.mp3` is put in `notSafeToDelete` (its path
contains the line's byte-6 suffix `.mp3`), and the removable set is empty
instead of containing exactly `/lib/b/Song.mp3`. -/
theorem exact_match_protection_cex :
    RunApp cfgLib inpScenario = some outScenario ∧
    outScenario.duplicates = [("Song", ["/lib/a/Song.mp3", "/lib/b/Song.mp3"])] ∧
    specNormalize "/lib" "/lib/b/Song.mp3" ∉
      specReferencedSet "/lib" outScenario.lines ∧
    inNotSafe outScenario.duplicates outScenario.lines "/lib/b/Song.mp3" = true ∧
    outScenario.safe = [] := by
  decide

/-- C3 (amended): protection is decided by substring containment of the
line's byte-6 suffix, not by exact relative-path equality: in the
scenario the suffix of `a/Song.mp3` is `.mp3`, it is contained in both
members' paths, so BOTH members are protected and the removable set is
empty. -/
theorem substring_protection_scenario :
    usedSongName "a/Song.mp3" = "Song" ∧
    (("a/Song.mp3" : String).toList.drop 6).asString = ".mp3" ∧
    strContains "/lib/a/Song.mp3" ".mp3" = true ∧
    strContains "/lib/b/Song.mp3" ".mp3" = true ∧
    RunApp cfgLib inpScenario = some outScenario ∧
    inNotSafe outScenario.duplicates outScenario.lines "/lib/a/Song.mp3" = true ∧
    inNotSafe outScenario.duplicates outScenario.lines "/lib/b/Song.mp3" = true ∧
    outScenario.safe = [] := by
  decide

/-- C4 counterexample: with no playlist references, the run on the
scenario library puts the group's FIRST member (its primary,
`/lib/a/Song.mp3`) into `safeToDelete` — the claim's assertion that the
primary is excluded from the removable set and retained is false. -/
theorem unreferenced_primary_retained_cex :
    RunApp cfgLib inpUnreferenced = some outUnreferenced ∧
    outUnreferenced.duplicates = [("Song", ["/lib/a/Song.mp3", "/lib/b/Song.mp3"])] ∧
    (∀ p ∈ (["/lib/a/Song.mp3", "/lib/b/Song.mp3"] : List String),
      inNotSafe outUnreferenced.duplicates outUnreferenced.lines p = false) ∧
    outUnreferenced.safe = ["/lib/a/Song.mp3"] := by
  decide

/-- C4 (amended): in a duplicate group with no protected member, the
member put into `safeToDelete` is exactly the group's FIRST member
(`duplicates[key][0]`): the primary is removed and all other members are
retained. -/
theorem unreferenced_group_removes_primary (dups : List (String × List String))
    (ns : String → Bool)
    (hdisj : dups.Pairwise fun a b => ∀ q ∈ a.2, q ∉ b.2)
    (hnd : ∀ kp ∈ dups, kp.2.Nodup)
    (kp : String × List String) (hkp : kp ∈ dups) (hne : kp.2 ≠ [])
    (hunref : ∀ p ∈ kp.2, ns p = false) :
    ∀ p ∈ kp.2, (p ∈ safeToDelete dups ns ↔ p = kp.2.headD "") := by
  have hhead : kp.2.headD "" ∈ kp.2 := by
    cases hc : kp.2 with
    | nil => exact absurd hc hne
    | cons a t => simp
  have hcontr : groupContribution ns kp.2 = [kp.2.headD ""] := by
    have hie : kp.2.isEmpty = false := by
      cases hc : kp.2 with
      | nil => exact absurd hc hne
      | cons a t => rfl
    have hns0 : ns (kp.2.headD "") = false := hunref _ hhead
    simp only [groupContribution, hie, hns0, Bool.false_eq_true, if_false]
  intro p hp
  rw [safeToDelete_eq dups ns hdisj hnd]
  constructor
  · intro hmem
    rcases List.mem_flatten.1 hmem with ⟨c, hc, hpc⟩
    rcases List.mem_map.1 hc with ⟨g, hg, rfl⟩
    have hpg : p ∈ g.2 := groupContribution_subset ns g.2 p hpc
    have heq := disjoint_unique_group dups hdisj kp g hkp hg p hp hpg
    rw [← heq, hcontr] at hpc
    exact List.mem_singleton.1 hpc
  · rintro rfl
    refine List.mem_flatten.2 ⟨groupContribution ns kp.2,
      List.mem_map.2 ⟨kp, hkp, rfl⟩, ?_⟩
    rw [hcontr]
    exact List.mem_singleton.2 rfl

/-- Witness for the amended C4 on a concrete two-group map with nothing
protected: the first member of the `a` group is removable, the second is
retained. -/
theorem unreferenced_group_removes_primary_witness :
    ("/x/a.mp3" : String) ∈ safeToDelete dupsTwoGroups (fun _ => false) ∧
    ("/y/a.mp3" : String) ∉ safeToDelete dupsTwoGroups (fun _ => false) := by
  have h := unreferenced_group_removes_primary dupsTwoGroups (fun _ => false)
    (by decide) (by decide) ("a", ["/x/a.mp3", "/y/a.mp3"]) (by decide)
    (by decide) (by decide)
  constructor
  · exact (h "/x/a.mp3" (by decide)).2 (by decide)
  · intro hmem
    exact absurd ((h "/y/a.mp3" (by decide)).1 hmem) (by decide)

/-- C5 counterexample: two removable copies of `Song.mp3` are both
renamed to the SAME destination `/qSong.mp3` — which is not a file inside
the quarantine directory `/q` (the code concatenates without a
separator) — and the second rename overwrites the first instead of
disambiguating: the final quarantine holds only the later file. -/
theorem quarantine_overwrite_cex :
    RunApp cfgLib inpTriple = some outTriple ∧
    outTriple.safe = ["/lib/b/Song.mp3", "/lib/c/Song.mp3"] ∧
    outTriple.moves = [("/lib/b/Song.mp3", "/qSong.mp3"),
      ("/lib/c/Song.mp3", "/qSong.mp3")] ∧
    outTriple.quarantine = [("/qSong.mp3", "/lib/c/Song.mp3")] := by
  decide

/-- C5 (amended): each move's destination is the raw string concatenation
of the quarantine folder value and the original base filename (inside the
folder only when the configured value happens to end in a separator); on
a destination-name collision the later rename overwrites the earlier one:
the final quarantine binds each destination to the LAST removable path
moved there, with no disambiguation. -/
theorem executor_concat_dest_overwrites (cfg : Config) (inp : RunInput)
    (out : RunOutput) (hrun : RunApp cfg inp = some out) :
    (∀ mv ∈ out.moves, mv.2 = cfg.duplicatesFolder ++ goBase mv.1) ∧
    ∀ k, out.quarantine.lookup k =
      (out.safe.filter (fun s => cfg.duplicatesFolder ++ goBase s == k)).getLast? := by
  obtain ⟨-, -, -, -, hsafe, hmoves, hq, -⟩ := RunApp_some_elim cfg inp out hrun
  constructor
  · intro mv hmv
    rw [hmoves] at hmv
    rcases List.mem_map.1 hmv with ⟨s, hs, rfl⟩
    rfl
  · intro k
    rw [hq, executeMoves_lookup]

/-- Witness for the amended C5 on the triple-copy run. -/
theorem executor_concat_dest_overwrites_witness :
    RunApp cfgLib inpTriple = some outTriple ∧
    ((∀ mv ∈ outTriple.moves, mv.2 = cfgLib.duplicatesFolder ++ goBase mv.1) ∧
    ∀ k, outTriple.quarantine.lookup k =
      (outTriple.safe.filter
        (fun s => cfgLib.duplicatesFolder ++ goBase s == k)).getLast?) :=
  ⟨by decide, executor_concat_dest_overwrites cfgLib inpTriple outTriple
    (by decide)⟩

/-- C2: every duplicate group of a completed run has at least two
members, at least one member of each group is never placed in
`safeToDelete`, and the part of `safeToDelete` that belongs to the group
is strictly smaller than the group's member list. Requires only that the
walk reports each path once, which `filepath.Walk` guarantees. -/
theorem keep_at_least_one (cfg : Config) (inp : RunInput) (out : RunOutput)
    (hrun : RunApp cfg inp = some out)
    (hwalk : (inp.libEntries.map WEntry.path).Nodup) :
    ∀ kp ∈ out.duplicates, 2 ≤ kp.2.length ∧ (∃ m ∈ kp.2, m ∉ out.safe) ∧
      (out.safe.filter (fun p => kp.2.contains p)).length < kp.2.length := by
  obtain ⟨-, -, hdup, -, hsafe, -, -, -⟩ := RunApp_some_elim cfg inp out hrun
  intro kp hkp
  rw [hdup] at hkp
  have hdisj := trackDuplicates_pairwise inp.libEntries
  have hgnd := trackDuplicates_groups_nodup inp.libEntries hwalk
  have h2 := trackDuplicates_two_le inp.libEntries kp hkp
  have hkpnd := hgnd kp hkp
  have hchar := safeToDelete_eq (trackDuplicates inp.libEntries)
    (inNotSafe (trackDuplicates inp.libEntries) out.lines) hdisj hgnd
  have hmem_unique : ∀ m ∈ kp.2,
      m ∈ safeToDelete (trackDuplicates inp.libEntries)
        (inNotSafe (trackDuplicates inp.libEntries) out.lines) →
      m ∈ groupContribution (inNotSafe (trackDuplicates inp.libEntries) out.lines)
        kp.2 := by
    intro m hm hmem
    rw [hchar] at hmem
    rcases List.mem_flatten.1 hmem with ⟨c, hc, hpc⟩
    rcases List.mem_map.1 hc with ⟨g, hg, rfl⟩
    have hpg := groupContribution_subset _ g.2 m hpc
    have heq := disjoint_unique_group _ hdisj kp g hkp hg m hm hpg
    rw [← heq] at hpc
    exact hpc
  obtain ⟨m, hm, hmn⟩ : ∃ m ∈ kp.2,
      m ∉ safeToDelete (trackDuplicates inp.libEntries)
        (inNotSafe (trackDuplicates inp.libEntries) out.lines) := by
    cases hshape : kp.2 with
    | nil => rw [hshape] at h2; cases h2
    | cons a t =>
      cases hshape2 : t with
      | nil =>
        rw [hshape, hshape2] at h2
        simp at h2
      | cons b t' =>
        cases hns : inNotSafe (trackDuplicates inp.libEntries) out.lines
            (kp.2.headD "") with
        | true =>
          refine ⟨kp.2.headD "", by simp [hshape], ?_⟩
          intro hmem
          have hpc := hmem_unique _ (by simp [hshape]) hmem
          have hie : kp.2.isEmpty = false := by rw [hshape]; rfl
          simp only [groupContribution, hie, Bool.false_eq_true, if_false,
            hns, if_true] at hpc
          have := List.mem_filter.1 hpc
          rw [hns] at this
          simp at this
        | false =>
          refine ⟨b, by simp [hshape, hshape2], ?_⟩
          intro hmem
          have hpc := hmem_unique b (by simp [hshape, hshape2]) hmem
          have hie : kp.2.isEmpty = false := by rw [hshape]; rfl
          simp only [groupContribution, hie, Bool.false_eq_true, if_false,
            hns, if_false] at hpc
          have hb : b = kp.2.headD "" := List.mem_singleton.1 hpc
          rw [hshape] at hb
          simp at hb
          rw [hshape, hshape2] at hkpnd
          rcases List.nodup_cons.1 hkpnd with ⟨hna, -⟩
          exact hna (hb ▸ List.mem_cons_self b t')
  have hsnd : out.safe.Nodup := by
    rw [hsafe]
    exact safeToDelete_nodup _ _
  refine ⟨h2, ⟨m, hm, by rw [hsafe]; exact hmn⟩, ?_⟩
  have hmn' : m ∉ out.safe := by rw [hsafe]; exact hmn
  exact filter_mem_length_lt out.safe kp.2 hsnd m hm hmn'

/-- Witness for C2 on the unreferenced scenario run. -/
theorem keep_at_least_one_witness :
    RunApp cfgLib inpUnreferenced = some outUnreferenced ∧
    ∀ kp ∈ outUnreferenced.duplicates, 2 ≤ kp.2.length ∧
      (∃ m ∈ kp.2, m ∉ outUnreferenced.safe) ∧
      (outUnreferenced.safe.filter (fun p => kp.2.contains p)).length <
        kp.2.length :=
  ⟨by decide, keep_at_least_one cfgLib inpUnreferenced outUnreferenced
    (by decide) (by decide)⟩

/-- C9: classification is deterministic. For the same duplicates map
(same groups with the same member order, listed in any iteration order,
with the well-formedness the index construction guarantees) and the same
set of collected lines (in any order), the protected predicate and the
membership of `safeToDelete` are identical. -/
theorem classification_deterministic (dups1 dups2 : List (String × List String))
    (lines1 lines2 : List String) (hperm : dups1.Perm dups2)
    (hlines : ∀ l, l ∈ lines1 ↔ l ∈ lines2)
    (hkeys : (dups1.map Prod.fst).Nodup)
    (hkc : ∀ kp ∈ dups1, ∀ q ∈ kp.2, pathKey q = kp.1)
    (hgnd : ∀ kp ∈ dups1, kp.2.Nodup) :
    (∀ p, inNotSafe dups1 lines1 p = inNotSafe dups2 lines2 p) ∧
    ∀ p, (p ∈ safeToDelete dups1 (inNotSafe dups1 lines1) ↔
          p ∈ safeToDelete dups2 (inNotSafe dups2 lines2)) := by
  have hlook := lookup_perm hperm hkeys
  have hns : ∀ p, inNotSafe dups1 lines1 p = inNotSafe dups2 lines2 p := by
    intro p
    unfold inNotSafe
    refine any_congr lines1 lines2 _ _ hlines ?_
    intro l
    rw [hlook (usedSongName l)]
  have hnsf : inNotSafe dups1 lines1 = inNotSafe dups2 lines2 := funext hns
  have hdisj1 := pairwise_disjoint_of_keys dups1 hkeys hkc
  have hdisj2 : dups2.Pairwise fun a b => ∀ q ∈ a.2, q ∉ b.2 := by
    refine (hperm.pairwise_iff ?_).1 hdisj1
    intro a b hab q hqb hqa
    exact hab q hqa hqb
  have hgnd2 : ∀ kp ∈ dups2, kp.2.Nodup := fun kp hkp =>
    hgnd kp (hperm.symm.subset hkp)
  refine ⟨hns, ?_⟩
  intro p
  rw [safeToDelete_eq dups1 _ hdisj1 hgnd,
      safeToDelete_eq dups2 _ hdisj2 hgnd2, ← hnsf]
  constructor
  · intro h
    rcases List.mem_flatten.1 h with ⟨c, hc, hpc⟩
    rcases List.mem_map.1 hc with ⟨g, hg, rfl⟩
    exact List.mem_flatten.2 ⟨_, List.mem_map.2 ⟨g, hperm.subset hg, rfl⟩, hpc⟩
  · intro h
    rcases List.mem_flatten.1 h with ⟨c, hc, hpc⟩
    rcases List.mem_map.1 hc with ⟨g, hg, rfl⟩
    exact List.mem_flatten.2 ⟨_, List.mem_map.2 ⟨g, hperm.symm.subset hg, rfl⟩, hpc⟩

/-- Witness for C9 on a two-group map iterated in both orders. -/
theorem classification_deterministic_witness :
    dupsTwoGroups.Perm dupsTwoGroupsRev ∧
    ((∀ p, inNotSafe dupsTwoGroups ["u"] p = inNotSafe dupsTwoGroupsRev ["u"] p) ∧
    ∀ p, (p ∈ safeToDelete dupsTwoGroups (inNotSafe dupsTwoGroups ["u"]) ↔
          p ∈ safeToDelete dupsTwoGroupsRev (inNotSafe dupsTwoGroupsRev ["u"]))) :=
  ⟨by decide, classification_deterministic dupsTwoGroups dupsTwoGroupsRev
    ["u"] ["u"] (by decide) (fun l => Iff.rfl) (by decide) (by decide)
    (by decide)⟩

end Harmoniq
